import Mathlib

/-!
# Verification of the InternVL answer-scoring module

Shallow embedding of `internvl_chat/tools/internvlo1_pipeline/utils_eval.py`.

Strings are modelled as `List Char`.  Python floats are modelled as exact
rationals (`ℚ`); the embedded `pyFloat` parser covers the finite decimal and
exponent literals Python's `float()` accepts (`inf`/`nan`, which have no
rational value, and digit-group underscores are outside the rational model).
`Char.toLower`/`Char.toUpper`/`Char.isAlpha` model the Python `str` methods on
the ASCII range, which covers every character handled by this module.
-/

namespace InternVL

/-- The apostrophe character (codepoint 39). -/
def apos : Char := Char.ofNat 39

/-- Python `str.lower`. -/
def lowerL (l : List Char) : List Char := l.map Char.toLower

/-- Python `str.upper`. -/
def upperL (l : List Char) : List Char := l.map Char.toUpper

/-- The characters Python `str.strip()` / `str.split()` / `\s` treat as whitespace. -/
def isPySpace (c : Char) : Bool :=
  c = ' ' || c = '\t' || c = '\n' || c = '\x0d' || c = '\x0b' || c = '\x0c'

/-- Drop matching characters from the end of a list. -/
def dropWhileEnd (p : Char → Bool) (l : List Char) : List Char :=
  (l.reverse.dropWhile p).reverse

/-- Python `str.strip()` (whitespace on both ends). -/
def stripWS (l : List Char) : List Char :=
  dropWhileEnd isPySpace (l.dropWhile isPySpace)

/-- Python `str.strip(ch)` for a single strip character, e.g. `.strip('*')`. -/
def stripChar (ch : Char) (l : List Char) : List Char :=
  dropWhileEnd (· = ch) (l.dropWhile (· = ch))

/-- Recursion kernel for `replaceL`; `fuel` only forces structural recursion
and never runs out when it starts at the length of the list (each step consumes
at least one character and one unit of fuel). -/
def replaceLAux (pat rep : List Char) : ℕ → List Char → List Char
  | _, [] => []
  | 0, l => l
  | fuel + 1, c :: rest =>
    if pat ≠ [] ∧ pat.isPrefixOf (c :: rest) then
      rep ++ replaceLAux pat rep fuel ((c :: rest).drop pat.length)
    else
      c :: replaceLAux pat rep fuel rest

/-- Python `str.replace(old, new)`: leftmost non-overlapping replacement.
An empty pattern returns the input unchanged (no call site uses one). -/
def replaceL (pat rep l : List Char) : List Char := replaceLAux pat rep l.length l

/-- Python `sub in s` substring containment. -/
def containsSub (pat : List Char) : List Char → Bool
  | [] => pat.isEmpty
  | c :: rest => pat.isPrefixOf (c :: rest) || containsSub pat rest

/-- Recursion kernel for `countSub` (`fuel` as in `replaceLAux`). -/
def countSubAux (pat : List Char) : ℕ → List Char → ℕ
  | _, [] => 0
  | 0, _ => 0
  | fuel + 1, c :: rest =>
    if pat ≠ [] ∧ pat.isPrefixOf (c :: rest) then
      1 + countSubAux pat fuel ((c :: rest).drop pat.length)
    else
      countSubAux pat fuel rest

/-- Python `s.count(sub)`: number of non-overlapping occurrences, scanning left to right. -/
def countSub (pat l : List Char) : ℕ := countSubAux pat l.length l

/-- The prefix of `l` before the first occurrence of `pat` (all of `l` when `pat`
is absent): Python `s.split(sep)[0]`. -/
def takeBeforeFirst (pat : List Char) : List Char → List Char
  | [] => []
  | c :: rest =>
    if pat ≠ [] ∧ pat.isPrefixOf (c :: rest) then [] else c :: takeBeforeFirst pat rest

/-- Recursion kernel for `splitWS` (`fuel` as in `replaceLAux`). -/
def splitWSAux : ℕ → List Char → List (List Char)
  | _, [] => []
  | 0, _ => []
  | fuel + 1, c :: rest =>
    if isPySpace c then splitWSAux fuel rest
    else
      ((c :: rest).takeWhile (fun d => !isPySpace d)) ::
        splitWSAux fuel ((c :: rest).dropWhile (fun d => !isPySpace d))

/-- Python `str.split()` with no separator: split on whitespace runs, no empty pieces. -/
def splitWS (l : List Char) : List (List Char) := splitWSAux l.length l

/-- Python `' '.join(pieces)`. -/
def joinSpace : List (List Char) → List Char
  | [] => []
  | [t] => t
  | t :: ts => t ++ ' ' :: joinSpace ts

/-- `EvalAIAnswerProcessor.CONTRACTIONS` (the full 120-entry table from the source). -/
def CONTRACTIONS : List (List Char × List Char) := [
  ("aint".toList, "ain't".toList),
  ("arent".toList, "aren't".toList),
  ("cant".toList, "can't".toList),
  ("couldve".toList, "could've".toList),
  ("couldnt".toList, "couldn't".toList),
  ("couldn'tve".toList, "couldn't've".toList),
  ("couldnt've".toList, "couldn't've".toList),
  ("didnt".toList, "didn't".toList),
  ("doesnt".toList, "doesn't".toList),
  ("dont".toList, "don't".toList),
  ("hadnt".toList, "hadn't".toList),
  ("hadnt've".toList, "hadn't've".toList),
  ("hadn'tve".toList, "hadn't've".toList),
  ("hasnt".toList, "hasn't".toList),
  ("havent".toList, "haven't".toList),
  ("hed".toList, "he'd".toList),
  ("hed've".toList, "he'd've".toList),
  ("he'dve".toList, "he'd've".toList),
  ("hes".toList, "he's".toList),
  ("howd".toList, "how'd".toList),
  ("howll".toList, "how'll".toList),
  ("hows".toList, "how's".toList),
  ("Id've".toList, "I'd've".toList),
  ("I'dve".toList, "I'd've".toList),
  ("Im".toList, "I'm".toList),
  ("Ive".toList, "I've".toList),
  ("isnt".toList, "isn't".toList),
  ("itd".toList, "it'd".toList),
  ("itd've".toList, "it'd've".toList),
  ("it'dve".toList, "it'd've".toList),
  ("itll".toList, "it'll".toList),
  ("let's".toList, "let's".toList),
  ("maam".toList, "ma'am".toList),
  ("mightnt".toList, "mightn't".toList),
  ("mightnt've".toList, "mightn't've".toList),
  ("mightn'tve".toList, "mightn't've".toList),
  ("mightve".toList, "might've".toList),
  ("mustnt".toList, "mustn't".toList),
  ("mustve".toList, "must've".toList),
  ("neednt".toList, "needn't".toList),
  ("notve".toList, "not've".toList),
  ("oclock".toList, "o'clock".toList),
  ("oughtnt".toList, "oughtn't".toList),
  ("ow's'at".toList, "'ow's'at".toList),
  ("'ows'at".toList, "'ow's'at".toList),
  ("'ow'sat".toList, "'ow's'at".toList),
  ("shant".toList, "shan't".toList),
  ("shed've".toList, "she'd've".toList),
  ("she'dve".toList, "she'd've".toList),
  ("she's".toList, "she's".toList),
  ("shouldve".toList, "should've".toList),
  ("shouldnt".toList, "shouldn't".toList),
  ("shouldnt've".toList, "shouldn't've".toList),
  ("shouldn'tve".toList, "shouldn't've".toList),
  ("somebody'd".toList, "somebodyd".toList),
  ("somebodyd've".toList, "somebody'd've".toList),
  ("somebody'dve".toList, "somebody'd've".toList),
  ("somebodyll".toList, "somebody'll".toList),
  ("somebodys".toList, "somebody's".toList),
  ("someoned".toList, "someone'd".toList),
  ("someoned've".toList, "someone'd've".toList),
  ("someone'dve".toList, "someone'd've".toList),
  ("someonell".toList, "someone'll".toList),
  ("someones".toList, "someone's".toList),
  ("somethingd".toList, "something'd".toList),
  ("somethingd've".toList, "something'd've".toList),
  ("something'dve".toList, "something'd've".toList),
  ("somethingll".toList, "something'll".toList),
  ("thats".toList, "that's".toList),
  ("thered".toList, "there'd".toList),
  ("thered've".toList, "there'd've".toList),
  ("there'dve".toList, "there'd've".toList),
  ("therere".toList, "there're".toList),
  ("theres".toList, "there's".toList),
  ("theyd".toList, "they'd".toList),
  ("theyd've".toList, "they'd've".toList),
  ("they'dve".toList, "they'd've".toList),
  ("theyll".toList, "they'll".toList),
  ("theyre".toList, "they're".toList),
  ("theyve".toList, "they've".toList),
  ("twas".toList, "'twas".toList),
  ("wasnt".toList, "wasn't".toList),
  ("wed've".toList, "we'd've".toList),
  ("we'dve".toList, "we'd've".toList),
  ("weve".toList, "we've".toList),
  ("werent".toList, "weren't".toList),
  ("whatll".toList, "what'll".toList),
  ("whatre".toList, "what're".toList),
  ("whats".toList, "what's".toList),
  ("whatve".toList, "what've".toList),
  ("whens".toList, "when's".toList),
  ("whered".toList, "where'd".toList),
  ("wheres".toList, "where's".toList),
  ("whereve".toList, "where've".toList),
  ("whod".toList, "who'd".toList),
  ("whod've".toList, "who'd've".toList),
  ("who'dve".toList, "who'd've".toList),
  ("wholl".toList, "who'll".toList),
  ("whos".toList, "who's".toList),
  ("whove".toList, "who've".toList),
  ("whyll".toList, "why'll".toList),
  ("whyre".toList, "why're".toList),
  ("whys".toList, "why's".toList),
  ("wont".toList, "won't".toList),
  ("wouldve".toList, "would've".toList),
  ("wouldnt".toList, "wouldn't".toList),
  ("wouldnt've".toList, "wouldn't've".toList),
  ("wouldn'tve".toList, "wouldn't've".toList),
  ("yall".toList, "y'all".toList),
  ("yall'll".toList, "y'all'll".toList),
  ("y'allll".toList, "y'all'll".toList),
  ("yall'd've".toList, "y'all'd've".toList),
  ("y'alld've".toList, "y'all'd've".toList),
  ("y'all'dve".toList, "y'all'd've".toList),
  ("youd".toList, "you'd".toList),
  ("youd've".toList, "you'd've".toList),
  ("you'dve".toList, "you'd've".toList),
  ("youll".toList, "you'll".toList),
  ("youre".toList, "you're".toList),
  ("youve".toList, "you've".toList)]

/-- `EvalAIAnswerProcessor.NUMBER_MAP`.  The source reads it through
`dict.setdefault(word, word)`, which also inserts the identity entry
`word ↦ word` for every unseen word; that mutation never changes any output
(later lookups of an inserted key return the key itself, exactly the default),
so the table is modelled as this constant list with lookup-or-default. -/
def NUMBER_MAP : List (List Char × List Char) := [
  ("none".toList, "0".toList),
  ("zero".toList, "0".toList),
  ("one".toList, "1".toList),
  ("two".toList, "2".toList),
  ("three".toList, "3".toList),
  ("four".toList, "4".toList),
  ("five".toList, "5".toList),
  ("six".toList, "6".toList),
  ("seven".toList, "7".toList),
  ("eight".toList, "8".toList),
  ("nine".toList, "9".toList),
  ("ten".toList, "10".toList)]

/-- `EvalAIAnswerProcessor.ARTICLES`. -/
def ARTICLES : List (List Char) := ["a".toList, "an".toList, "the".toList]

/-- `EvalAIAnswerProcessor.PUNCTUATIONS` (the backslash entry `'\\'` is the
single backslash character; braces are written with hex escapes). -/
def PUNCTUATIONS : List Char :=
  [';', '/', '[', ']', '"', '\x7b', '\x7d', '(', ')', '=', '+', '\\', '_', '-',
   '>', '<', '@', '\x60', ',', '?', '!']

/-- `EvalAIAnswerProcessor.word_tokenize`. -/
def word_tokenize (word : List Char) : List Char :=
  let w := lowerL word
  let w := replaceL [','] [] w
  let w := replaceL ['?'] [] w
  let w := replaceL [apos, 's'] [' ', apos, 's'] w
  stripWS w

/-- Does the list start with a decimal digit? -/
def headIsDigit : List Char → Bool
  | d :: _ => d.isDigit
  | [] => false

/-- One-or-more commas followed by a digit: the `(\,)+(?=\d)` part of
`COMMA_STRIP` matching at the head of the list. -/
def commasThenDigit : List Char → Bool
  | ',' :: rest => headIsDigit rest || commasThenDigit rest
  | _ => false

/-- `re.search(COMMA_STRIP, l) is not None` where
`COMMA_STRIP = (?<=\d)(\,)+(?=\d)`: some digit is followed by a comma run that
is followed by a digit. -/
def commaStripFound : List Char → Bool
  | [] => false
  | c :: rest => (c.isDigit && commasThenDigit rest) || commaStripFound rest

/-- The substitution `PERIOD_STRIP.sub('', out_text, re.UNICODE)`.
`PERIOD_STRIP = (?!<=\d)(\.)(?!\d)`: the first group is a (miswritten) negative
lookahead that can never fail at a position where the `(\.)` group matches, so
the regex matches exactly the periods not immediately followed by a digit.
`re.UNICODE` (numeric value 32) lands in the `count` argument of `sub`, so at
most 32 periods are removed; `fuel` models that cap. -/
def periodStripL : ℕ → List Char → List Char
  | _, [] => []
  | 0, l => l
  | fuel + 1, c :: rest =>
    if c = '.' && !headIsDigit rest then periodStripL fuel rest
    else c :: periodStripL (fuel + 1) rest

/-- The per-punctuation condition of `process_punctuation`: evaluated against
the original `in_text`, not the evolving `out_text`. -/
def punctCond (p : Char) (inText : List Char) : Bool :=
  containsSub [p, ' '] inText || containsSub [' ', p] inText || commaStripFound inText

/-- `EvalAIAnswerProcessor.process_punctuation`. -/
def process_punctuation (inText : List Char) : List Char :=
  let outText := PUNCTUATIONS.foldl
    (fun out p => if punctCond p inText then replaceL [p] [] out else replaceL [p] [' '] out)
    inText
  periodStripL 32 outText

/-- `EvalAIAnswerProcessor.process_digit_article`. -/
def process_digit_article (inText : List Char) : List Char :=
  let tempText := splitWS (lowerL inText)
  let outText := tempText.foldl
    (fun acc word =>
      let word := match List.lookup word NUMBER_MAP with
        | some v => v
        | none => word
      if word ∈ ARTICLES then acc else acc ++ [word])
    []
  let outText := outText.map
    (fun word => match List.lookup word CONTRACTIONS with
      | some v => v
      | none => word)
  joinSpace outText

/-- `EvalAIAnswerProcessor.__call__`: the full normalization pipeline. -/
def evalai_process (item : List Char) : List Char :=
  let item := word_tokenize item
  let item := stripWS (replaceL ['\t'] [' '] (replaceL ['\n'] [' '] item))
  let item := process_punctuation item
  process_digit_article item

/-- Every period in the list is immediately followed by a digit (so the
period-stripping substitution leaves the list unchanged). -/
def periodOkL : List Char → Bool
  | [] => true
  | c :: rest => (c ≠ '.' || headIsDigit rest) && periodOkL rest

/-- A character that every stage of the normalizer leaves in place: fixed by
lowercasing, not whitespace, not one of the punctuation marks, and not an
apostrophe (ruling out the `'s`-splitting of `word_tokenize`). -/
def tokenOkChar (c : Char) : Bool :=
  Char.toLower c == c && !isPySpace c && decide (c ∉ PUNCTUATIONS) && c ≠ apos

/-- A token that `process_digit_article` maps to itself: nonempty, made of
stable characters, periods only before digits, not a number word, not an
article, and not a key of the contraction table. -/
def tokenOk (t : List Char) : Bool :=
  !t.isEmpty && t.all tokenOkChar && periodOkL t &&
    (List.lookup t NUMBER_MAP).isNone && decide (t ∉ ARTICLES) &&
    (List.lookup t CONTRACTIONS).isNone

/-- Normalized shape: the string is exactly its whitespace-split tokens joined
by single spaces, and every token is stable under the pipeline.  Strings of
this shape are fixed points of `evalai_process`. -/
def normShape (y : List Char) : Bool :=
  joinSpace (splitWS y) == y && (splitWS y).all tokenOk

/-! ## `TextVQAAccuracyEvaluator` -/

/-- The value `TextVQAAccuracyEvaluator._compute_answer_scores(raw_answers)[u]`
for a key `u` of the produced dict (scores are exact rationals standing for the
Python floats).  `gt_answers = list(enumerate(answers))`; for every annotator
pair the *other* answers are the enumerated pairs different from it, and the
leave-one-out accuracy is `min(1, matching/3)`, averaged over all annotators. -/
def answer_scores_entry (raw_answers : List (List Char)) (u : List Char) : ℚ :=
  let answers := raw_answers.map evalai_process
  let gt_answers := answers.enum
  let accs := gt_answers.map (fun ga =>
    let other_answers := gt_answers.filter (fun it => decide (it ≠ ga))
    let matching_answers := other_answers.filter (fun it => decide (it.2 = u))
    min 1 ((matching_answers.length : ℚ) / 3))
  accs.sum / (accs.length : ℚ)

/-- The soft score assigned to one prediction entry:
`_compute_answer_scores(gt_answers).get(processed_prediction, 0.0)`.
The dict has exactly the distinct processed answers as keys, so the lookup
succeeds iff the processed prediction occurs among the processed answers. -/
def vqa_eval_score (pred : List Char) (raw_answers : List (List Char)) : ℚ :=
  let answers := raw_answers.map evalai_process
  let pred_answer := evalai_process pred
  if pred_answer ∈ answers then answer_scores_entry raw_answers pred_answer else 0

/-- `TextVQAAccuracyEvaluator.eval_pred_list`: the mean of the per-entry soft
scores (an entry is a prediction together with its ground-truth answers). -/
def eval_pred_list (entries : List (List Char × List (List Char))) : ℚ :=
  let pred_scores := entries.map (fun e => vqa_eval_score e.1 e.2)
  pred_scores.sum / (pred_scores.length : ℚ)

/-- The leave-one-out agreement of the normalized prediction, exactly as the
claim states it: for each of the ground-truth answers treated in turn as the
query, count how many of the *other* normalized answers equal the normalized
prediction, cap `count/3` at `1`, and average over all trials.  (When the
normalized prediction matches no normalized ground truth every count is `0`,
so the average is `0`, agreeing with the claim's parenthetical.) -/
def vqa_loo_claim (pred : List Char) (raw_answers : List (List Char)) : ℚ :=
  let p := evalai_process pred
  let as := raw_answers.map evalai_process
  let n := as.length
  (((List.range n).map (fun i =>
      min 1 ((((List.range n).filter
          (fun j => decide (j ≠ i) && decide (as.getD j [] = p))).length : ℚ) / 3))).sum)
    / (n : ℚ)

/-! ## Numeric parsing and the relaxed scorers -/

/-- Digits-to-number, most significant first. -/
def natOfDigits (l : List Char) : ℕ := l.foldl (fun a c => 10 * a + (c.toNat - 48)) 0

/-- Python `float(text)` as an exact rational: optional surrounding whitespace,
optional sign, decimal digits with optional fraction part and optional decimal
exponent.  `inf`/`nan` (not rationals) and digit-group underscores are outside
the model; no claim exercises them. -/
def pyFloat (s : List Char) : Option ℚ :=
  let l := stripWS s
  let sl : ℚ × List Char :=
    match l with
    | '+' :: r => (1, r)
    | '-' :: r => (-1, r)
    | _ => (1, l)
  let sgn := sl.1
  let l := sl.2
  let ip := l.takeWhile Char.isDigit
  let l := l.dropWhile Char.isDigit
  let fl : List Char × List Char :=
    match l with
    | '.' :: r => (r.takeWhile Char.isDigit, r.dropWhile Char.isDigit)
    | _ => ([], l)
  let fp := fl.1
  let l := fl.2
  if ip.isEmpty && fp.isEmpty then none
  else
    let mant : ℚ := (natOfDigits ip : ℚ) + (natOfDigits fp : ℚ) / (10 : ℚ) ^ fp.length
    match l with
    | [] => some (sgn * mant)
    | e :: r =>
      if e = 'e' || e = 'E' then
        let er : ℤ × List Char :=
          match r with
          | '+' :: r2 => (1, r2)
          | '-' :: r2 => (-1, r2)
          | _ => (1, r)
        let esgn := er.1
        let r := er.2
        let ed := r.takeWhile Char.isDigit
        let r := r.dropWhile Char.isDigit
        if ed.isEmpty || !r.isEmpty then none
        else some (sgn * mant * (10 : ℚ) ^ (esgn * (natOfDigits ed : ℤ)))
      else none

/-- The `_to_float` helper of `math_score`: strip the unit substrings, then
parse (`None` on failure). -/
def math_to_float (text : List Char) : Option ℚ :=
  let t := replaceL "degrees".toList [] text
  let t := replaceL "degree".toList [] t
  let t := replaceL "\\angle".toList [] t
  let t := replaceL "degrees".toList [] t
  let t := replaceL "°".toList [] t
  let t := replaceL "%".toList [] t
  let t := replaceL "cm".toList [] t
  pyFloat t

/-- `math_score(target, prediction, max_relative_change=1e-3)`.  The guard
`prediction_float is not None and target_float` tests the *truthiness* of the
parsed target, so a target parsing to `0.0` (falsy) falls through to the
case-insensitive exact-match branch. -/
def math_score (target prediction : List Char) (max_relative_change : ℚ := 1/1000) : Bool :=
  match math_to_float prediction, math_to_float target with
  | some p, some t =>
    if t ≠ 0 then decide (|p - t| / |t| ≤ max_relative_change)
    else lowerL prediction == lowerL target
  | _, _ => lowerL prediction == lowerL target

/-- The `_to_float` helper of `relaxed_correctness`: a trailing `%` is stripped
(`str.rstrip('%')`, removing every trailing percent sign) but the numeric value
is kept, per the commented-out `/ 100.0` in the source. -/
def relaxed_to_float (text : List Char) : Option ℚ :=
  if text.getLast? = some '%' then pyFloat (dropWhileEnd (· = '%') text)
  else pyFloat text

/-- `relaxed_correctness(target, prediction, max_relative_change=0.05)`.
A 4-character target starting with `"20"` short-circuits to case-insensitive
exact match; otherwise the same truthiness guard as in `math_score` applies. -/
def relaxed_correctness (target prediction : List Char) (max_relative_change : ℚ := 1/20) : Bool :=
  if target.length == 4 && target.take 2 == "20".toList then
    lowerL prediction == lowerL target
  else
    match relaxed_to_float prediction, relaxed_to_float target with
    | some p, some t =>
      if t ≠ 0 then decide (|p - t| / |t| ≤ max_relative_change)
      else lowerL prediction == lowerL target
    | _, _ => lowerL prediction == lowerL target

/-! ## Levenshtein distance -/

/-- The inner loop of `levenshtein_distance`: given the previous row tail
`d0 :: d1 :: …` and the last value appended to the current row, produce the
rest of the current row.  The previous row is always one element longer than
the remaining `s1`, so the catch-all cases are unreachable. -/
def lev_inner (c2 : Char) : List Char → List ℕ → ℕ → List ℕ
  | [], _, _ => []
  | _ :: _, [], _ => []
  | _ :: _, [_], _ => []
  | c1 :: s1, d0 :: d1 :: rest, lastv =>
    let v := if c1 = c2 then d0 else 1 + min d0 (min d1 lastv)
    v :: lev_inner c2 s1 (d1 :: rest) v

/-- The outer loop of `levenshtein_distance`: one pass per character of `s2`
(`i2` is the running `enumerate` index), threading the row `distances`. -/
def lev_outer (s1 : List Char) : List Char → ℕ → List ℕ → List ℕ
  | [], _, dist => dist
  | c2 :: s2, i2, dist => lev_outer s1 s2 (i2 + 1) ((i2 + 1) :: lev_inner c2 s1 dist (i2 + 1))

/-- `levenshtein_distance(s1, s2)`: swap so the row is indexed by the shorter
string, start from `range(len(s1)+1)`, and return the last entry of the final
row (`distances[-1]`). -/
def levenshtein_distance (s1 s2 : List Char) : ℕ :=
  let p : List Char × List Char := if s2.length < s1.length then (s2, s1) else (s1, s2)
  (lev_outer p.1 p.2 0 (List.range (p.1.length + 1))).getLastD 0

/-- The classic Levenshtein recurrence on prefix lengths: `levRec s t i j` is
the unit-cost insert/delete/substitute edit distance between the first `i`
characters of `s` and the first `j` characters of `t`. -/
def levRec (s t : List Char) : ℕ → ℕ → ℕ
  | 0, j => j
  | i + 1, 0 => i + 1
  | i + 1, j + 1 =>
    if s.getD i ' ' = t.getD j ' ' then levRec s t i j
    else 1 + min (levRec s t i j) (min (levRec s t i (j + 1)) (levRec s t (i + 1) j))
termination_by i j => (i, j)

/-! ## Multiple choice, answer parsing, post-processing -/

/-- `multi_choice_score(answer_pred, answer_gt)` (`1`/`True` collapsed to `true`). -/
def multi_choice_score (answer_pred answer_gt : List Char) : Bool :=
  let ap := stripWS answer_pred
  let gt := stripWS answer_gt
  if lowerL ap == lowerL gt then true
  else
    let ap := if 2 ≤ ap.length && ap.getD 1 ' ' == '.' then ap.take 1 else ap
    let ap := if 3 ≤ ap.length && ap.getD 0 ' ' == '(' && ap.getD 2 ' ' == ')'
      then [ap.getD 1 ' '] else ap
    lowerL ap == lowerL gt

/-- The failure modes of `parse_answer`: `NotImplementedError` for an unknown
version and the three `RuntimeError` cases. -/
inductive ParseFail where
  | unsupported : ParseFail
  | noMatch : ParseFail
  | dupTrigger : ParseFail
  | emptyRationale : ParseFail
deriving DecidableEq

/-- Case-insensitive match of `pat` at the head of `l` (`re.IGNORECASE`). -/
def ciPrefixMatch (pat l : List Char) : Bool :=
  pat.length ≤ l.length && lowerL pat == lowerL (l.take pat.length)

/-- `re.search` for an alternation of literal triggers: scan positions left to
right; at each position try the alternatives in order; return the matched slice
(original casing, `group(1)`) and the remainder of the text after it. -/
def regexTriggerSearch (pats : List (List Char)) : List Char → Option (List Char × List Char)
  | [] => none
  | c :: rest =>
    match pats.find? (fun pat => ciPrefixMatch pat (c :: rest)) with
    | some pat => some ((c :: rest).take pat.length, (c :: rest).drop pat.length)
    | none => regexTriggerSearch pats rest

/-- `group(2)` of `(trigger)\s*(.*)`: after the trigger, greedily skip
whitespace (`\s*`), then take up to the next newline (`.` does not match
`'\n'`). -/
def restOfMatch (after : List Char) : List Char :=
  (after.dropWhile isPySpace).takeWhile (fun c => c ≠ '\n')

/-- `parse_answer(text, version)`. -/
def parse_answer (text : List Char) (version : String) : Except ParseFail (List Char × List Char) :=
  let trig : Option (Option (List Char × List Char)) :=
    if version = "en" then some (regexTriggerSearch ["Final answer:".toList, "Answer:".toList] text)
    else if version = "zh" then some (regexTriggerSearch ["答案:".toList] text)
    else none
  match trig with
  | none => .error .unsupported
  | some none => .error .noMatch
  | some (some (matched, after)) =>
    let answer_trigger := stripWS matched
    let answer := stripWS (stripChar '*' (stripWS (restOfMatch after)))
    if 2 < countSub answer_trigger text then .error .dupTrigger
    else
      let rationale :=
        stripWS (stripChar '*' (stripWS (takeBeforeFirst (lowerL answer_trigger) (lowerL text))))
      if rationale.length = 0 then .error .emptyRationale
      else .ok (rationale, answer)

/-- `option_candidate`: the 14 allowed option letters. -/
def option_candidate : List Char :=
  ['A', 'B', 'C', 'D', 'E', 'F', 'G', 'H', 'I', 'J', 'K', 'L', 'M', 'N']

/-- `post_process(pred)`; `none` models the `RuntimeError` raise. -/
def post_process (pred : List Char) : Option (List Char) :=
  let pred := upperL (stripChar '*' (stripWS pred))
  if pred.length = 1 then some pred
  else if 1 < pred.length && !(pred.getD 1 ' ').isAlpha
      && option_candidate.contains (pred.getD 0 ' ') then
    some [pred.getD 0 ' ']
  else if 2 < pred.length && pred.getD 0 ' ' == '(' && pred.getD 2 ' ' == ')'
      && option_candidate.contains (pred.getD 1 ' ') then
    some [pred.getD 1 ' ']
  else none

/-! ## Dispatch and memoization -/

/-- The process-wide `evaluator_cache`, modelled as an association list keyed by
the `(prediction, ground truth)` pair (insertion shadows older entries, like a
dict store). -/
def Cache : Type := List ((List Char × List Char) × ℕ)

/-- Python `max(score, bool)` coercion. -/
def boolToQ (b : Bool) : ℚ := if b then 1 else 0

/-- The `vqa_score` block of `check_answer`.  In the source the block runs
first, on an accumulator equal to `0`, so
`accuracy = max(accuracy, eval_pred_list(...))` there is `max 0 (…)`; the two
empty-string guards then force the value to `0` exactly as in the source. -/
def vqa_mode_value (answer_pred answer_gt : List Char) : ℚ :=
  let acc := max 0 (eval_pred_list [(answer_pred, List.replicate 10 answer_gt)])
  let acc := if (evalai_process answer_pred).length = 0 then 0 else acc
  if (evalai_process answer_gt).length = 0 then 0 else acc

/-- The `anls` contribution of `check_answer`: whitespace-normalized lowercased
strings, Levenshtein distance over them, divided by the maximum of the
uppercased raw lengths.  (This is a distance ratio, not a similarity; the
dispatcher nevertheless feeds it to `max`, as the source does.) -/
def anls_mode_value (answer_pred answer_gt : List Char) : ℚ :=
  let gt_answer := joinSpace (splitWS (lowerL (stripWS answer_gt)))
  let det_answer := joinSpace (splitWS (lowerL (stripWS answer_pred)))
  let dist := levenshtein_distance gt_answer det_answer
  let length := max (upperL answer_gt).length (upperL answer_pred).length
  (dist : ℚ) / (length : ℚ)

/-- The accumulator of `check_answer` after all five mode blocks, in source
order (`vqa_score`, `relaxed_accuracy`, `anls`, `mc_score`, `math_score`). -/
def check_accuracy (answer_pred answer_gt : List Char) (mode : List String) : ℚ :=
  let accuracy : ℚ := 0
  let accuracy := if "vqa_score" ∈ mode then vqa_mode_value answer_pred answer_gt
    else accuracy
  let accuracy := if "relaxed_accuracy" ∈ mode then
      max accuracy (boolToQ (relaxed_correctness answer_gt answer_pred))
    else accuracy
  let accuracy := if "anls" ∈ mode then
      max accuracy (anls_mode_value answer_pred answer_gt)
    else accuracy
  let accuracy := if "mc_score" ∈ mode then
      max accuracy (boolToQ (multi_choice_score answer_pred answer_gt))
    else accuracy
  if "math_score" ∈ mode then
    max accuracy (boolToQ (math_score answer_pred answer_gt))
  else accuracy

/-- `check_answer(answer_pred, answer_gt, mode)`, with the global cache made an
explicit argument and the updated cache returned.  The initial cache read of
the source binds a local that is overwritten before any use (the exact-match
branch returns the literal `1` and the fall-through branch reassigns
`accuracy = 0`), so it is modelled as the dead binding `_cached`.  The
exact-match branch returns without storing; otherwise the accumulated maximum
is binarized at `> 0.9` and the decision is stored. -/
def check_answer (cache : Cache) (answer_pred answer_gt : List Char) (mode : List String) :
    ℕ × Cache :=
  let _cached := List.lookup (answer_pred, answer_gt) cache
  if lowerL answer_pred == lowerL answer_gt then (1, cache)
  else
    let result := if 9/10 < check_accuracy answer_pred answer_gt mode then 1 else 0
    (result, ((answer_pred, answer_gt), result) :: cache)

/-! ## Claim C6: concrete normalization example -/

/-- C6: normalizing the input `"Two dogs, a cat."` yields exactly `"2 dogs cat"`:
the comma is removed, the article `a` is dropped, the number word `Two` maps to
`2`, and the trailing period (not adjacent to a digit) is stripped. -/
theorem C6_normalize_two_dogs :
    evalai_process "Two dogs, a cat.".toList = "2 dogs cat".toList := by decide

/-! ## Claim C8: `post_process("(C) cats")` -/

/-- C8 counterexample: contrary to the claim, `post_process("(C) cats")` does
not fail — the parenthesized branch only requires `len(pred) > 2` with `'('` at
index 0 and `')'` at index 2, which `"(C) CATS"` satisfies. -/
theorem C8_post_process_counterexample :
    post_process "(C) cats".toList ≠ none := by decide

/-- C8 (amended): `post_process("(C) cats")` succeeds and returns `"C"`: after
stripping and uppercasing, the parenthesized-option branch fires because the
check is `len(pred) > 2 and pred[0] == '(' and pred[2] == ')'` — there is no
strict 3-character length gate. -/
theorem C8_post_process_returns_C :
    post_process "(C) cats".toList = some ['C'] := by decide

/-! ## Claim C9: `parse_answer` on the running example -/

/-- C9: `parse_answer("The sky is blue. Final answer: blue", "en")` succeeds
with rationale `"the sky is blue."` (lowercased text before the trigger,
trimmed of whitespace and `*`) and answer `"blue"` (text after the trigger with
whitespace and one layer of `*` stripped). -/
theorem C9_parse_answer_example :
    parse_answer "The sky is blue. Final answer: blue".toList "en" =
      .ok ("the sky is blue.".toList, "blue".toList) := rfl

/-! ## Claim C5: the cache read in `check_answer` is dead -/

/-- C5: the decision returned by `check_answer` does not depend on the prior
contents of the memo cache: the initial cache read binds a local that is never
used (the exact-match branch returns the literal `1`; the other path reassigns
the accumulator to `0` first), so any two cache states produce the same
decision. -/
theorem C5_cache_read_is_dead (c₁ c₂ : Cache) (p g : List Char) (m : List String) :
    (check_answer c₁ p g m).1 = (check_answer c₂ p g m).1 := by
  unfold check_answer
  dsimp only
  split <;> rfl

/-! ## Claim C10: a target parsing to 0.0 skips the numeric comparison -/

/-- C10: in both `relaxed_correctness` and `math_score`, when the target parses
to the float `0.0` the truthiness guard `target_float` fails and the result is
case-insensitive exact string equality; `"0cm"` parses to `0` for `math_score`,
and `relaxed_correctness("0", "0.00")` is `False` despite both parsing to `0`. -/
theorem C10_falsy_zero_target :
    (∀ (t p : List Char) (tol : ℚ), relaxed_to_float t = some 0 →
      relaxed_correctness t p tol = (lowerL p == lowerL t)) ∧
    (∀ (t p : List Char) (tol : ℚ), math_to_float t = some 0 →
      math_score t p tol = (lowerL p == lowerL t)) ∧
    math_to_float "0cm".toList = some 0 ∧
    relaxed_correctness "0".toList "0.00".toList (1/20) = false := by
  refine ⟨?_, ?_, ?_, ?_⟩
  · intro t p tol ht
    rcases hp : relaxed_to_float p with _ | pv <;>
      simp [relaxed_correctness, ht, hp]
  · intro t p tol ht
    rcases hp : math_to_float p with _ | pv <;>
      simp [math_score, ht, hp]
  · with_unfolding_all decide
  · with_unfolding_all decide

/-- Witness for C10: the target `"0"` parses to `0` and the zero-target branch
of `relaxed_correctness` compares `"1"` against `"0"` as strings. -/
theorem C10_falsy_zero_target_witness :
    relaxed_to_float "0".toList = some 0 ∧
    relaxed_correctness "0".toList "1".toList (1/20) =
      (lowerL "1".toList == lowerL "0".toList) :=
  ⟨by with_unfolding_all decide,
   C10_falsy_zero_target.1 "0".toList "1".toList (1/20) (by with_unfolding_all decide)⟩

/-! ## Claim C4: `relaxed_correctness` tolerance characterization -/

/-- C4 counterexample: the claim as stated fails when the target parses to `0`:
for target `"0"` and prediction `"1"` both strings parse as floats and the
claimed relative-difference condition `|1 - 0| / |0| ≤ 0.05` holds (under the
`x / 0 = 0` convention of `ℚ`; as a real-number condition it is undefined
rather than true), yet `relaxed_correctness("0", "1", 0.05)` returns `False`
because the falsy parsed target routes to exact string comparison. -/
theorem C4_relaxed_correctness_counterexample :
    relaxed_to_float "0".toList = some 0 ∧
    relaxed_to_float "1".toList = some 1 ∧
    relaxed_correctness "0".toList "1".toList (1/20) = false ∧
    |(1:ℚ) - 0| / |(0:ℚ)| ≤ 1/20 := by
  refine ⟨?_, ?_, ?_, ?_⟩ <;> with_unfolding_all decide

/-- C4 (amended): for every target and prediction that both parse as floats
(trailing `%` stripped, numeric value kept) *with the parsed target nonzero*,
`relaxed_correctness` with tolerance `0.05` decides `|p - t| / |t| ≤ 0.05`,
except that a 4-character target starting with `"20"` is compared by
case-insensitive string equality; and the four concrete examples hold. -/
theorem C4_relaxed_correctness_spec :
    (∀ (t p : List Char) (tv pv : ℚ), relaxed_to_float t = some tv →
      relaxed_to_float p = some pv → tv ≠ 0 →
      (relaxed_correctness t p (1/20) = true ↔
        (if t.length = 4 ∧ t.take 2 = "20".toList then lowerL p = lowerL t
         else |pv - tv| / |tv| ≤ 1/20))) ∧
    relaxed_correctness "10".toList "10.4".toList (1/20) = true ∧
    relaxed_correctness "10".toList "11".toList (1/20) = false ∧
    relaxed_correctness "2019".toList "2019".toList (1/20) = true ∧
    relaxed_correctness "2019".toList "2020".toList (1/20) = false := by
  refine ⟨?_, ?_, ?_, ?_, ?_⟩
  · intro t p tv pv ht hp htv
    have hcond : (t.length == 4 && t.take 2 == "20".toList) = true ↔
        (t.length = 4 ∧ t.take 2 = "20".toList) := by
      simp
    unfold relaxed_correctness
    by_cases hy : t.length = 4 ∧ t.take 2 = "20".toList
    · rw [if_pos (hcond.mpr hy), if_pos hy]
      simp
    · rw [if_neg (fun hb => hy (hcond.mp hb)), if_neg hy, ht, hp]
      dsimp only
      rw [if_pos htv]
      simp
  · with_unfolding_all decide
  · with_unfolding_all decide
  · with_unfolding_all decide
  · with_unfolding_all decide

/-- Witness for C4: target `"10"` parses to `10 ≠ 0`, prediction `"10.4"`
parses to `52/5`, and the characterization applies at that input. -/
theorem C4_relaxed_correctness_spec_witness :
    relaxed_to_float "10".toList = some 10 ∧
    relaxed_to_float "10.4".toList = some (52/5) ∧
    (10:ℚ) ≠ 0 ∧
    (relaxed_correctness "10".toList "10.4".toList (1/20) = true ↔
      (if "10".toList.length = 4 ∧ "10".toList.take 2 = "20".toList
       then lowerL "10.4".toList = lowerL "10".toList
       else |(52/5:ℚ) - 10| / |(10:ℚ)| ≤ 1/20)) :=
  ⟨by with_unfolding_all decide, by with_unfolding_all decide, by with_unfolding_all decide,
   C4_relaxed_correctness_spec.1 "10".toList "10.4".toList 10 (52/5)
     (by with_unfolding_all decide) (by with_unfolding_all decide)
     (by with_unfolding_all decide)⟩

/-! ## Claim C3: `check_answer` is monotone in the mode set -/

theorem ite_max_mono {b b' : Prop} [Decidable b] [Decidable b'] (hb : b → b')
    {a a' : ℚ} (ha : a ≤ a') (v : ℚ) :
    (if b then max a v else a) ≤ (if b' then max a' v else a') := by
  by_cases h1 : b
  · rw [if_pos h1, if_pos (hb h1)]
    exact max_le_max ha le_rfl
  · rw [if_neg h1]
    by_cases h2 : b'
    · rw [if_pos h2]
      exact ha.trans (le_max_left _ _)
    · rw [if_neg h2]
      exact ha

theorem ite_base_mono {b b' : Prop} [Decidable b] [Decidable b'] (hb : b → b')
    {X : ℚ} (hX : 0 ≤ X) : (if b then X else (0:ℚ)) ≤ (if b' then X else 0) := by
  by_cases h1 : b
  · rw [if_pos h1, if_pos (hb h1)]
  · rw [if_neg h1]
    by_cases h2 : b'
    · rw [if_pos h2]
      exact hX
    · rw [if_neg h2]

theorem binarize_mono {a a' : ℚ} (h : a ≤ a') :
    (if 9/10 < a then (1:ℕ) else 0) ≤ if 9/10 < a' then 1 else 0 := by
  by_cases h1 : 9/10 < a
  · rw [if_pos h1, if_pos (lt_of_lt_of_le h1 h)]
  · rw [if_neg h1]
    exact Nat.zero_le _

theorem vqa_mode_value_nonneg (p g : List Char) : 0 ≤ vqa_mode_value p g := by
  unfold vqa_mode_value
  dsimp only
  split
  · exact le_rfl
  · split
    · exact le_rfl
    · exact le_max_left _ _

theorem check_accuracy_mono (p g : List Char) (M M' : List String) (hMM : M ⊆ M') :
    check_accuracy p g M ≤ check_accuracy p g M' := by
  unfold check_accuracy
  dsimp only
  apply ite_max_mono (fun h => hMM h)
  apply ite_max_mono (fun h => hMM h)
  apply ite_max_mono (fun h => hMM h)
  apply ite_max_mono (fun h => hMM h)
  exact ite_base_mono (fun h => hMM h) (vqa_mode_value_nonneg p g)

/-- C3: enlarging the mode set can only raise the decision of `check_answer`:
the exact-match branch is mode-independent, and otherwise every enabled mode
contributes through `max` to the accumulator, with the `vqa_score` block
producing a nonnegative value, so a superset of modes yields an accumulator at
least as large, and binarization at `> 0.9` preserves the order. -/
theorem C3_check_answer_mode_monotone (cache : Cache) (p g : List Char)
    (M M' : List String) (hMM : M ⊆ M') :
    (check_answer cache p g M).1 ≤ (check_answer cache p g M').1 := by
  unfold check_answer
  dsimp only
  split
  · exact le_rfl
  · exact binarize_mono (check_accuracy_mono p g M M' hMM)

/-- Witness for C3: the empty mode set is a subset of `["anls"]`, and the
decisions at a concrete non-matching pair are ordered accordingly. -/
theorem C3_check_answer_mode_monotone_witness :
    (check_answer [] "xyz".toList "abc".toList []).1 ≤
      (check_answer [] "xyz".toList "abc".toList ["anls"]).1 :=
  C3_check_answer_mode_monotone [] "xyz".toList "abc".toList [] ["anls"]
    (List.nil_subset _)

/-! ## Claim C1: the VQA soft score is the leave-one-out agreement -/

theorem enum_eq_map_range (as : List (List Char)) :
    as.enum = (List.range as.length).map (fun j => (j, as.getD j [])) := by
  apply List.ext_getElem
  · simp
  · intro i h1 h2
    simp [List.enum, List.getD_eq_getElem?_getD, List.getElem?_eq_getElem,
      List.enum_length.symm.trans List.enum_length]
    simp at h1
    simp [List.getElem?_eq_getElem h1]

set_option maxHeartbeats 2000000 in
theorem vqa_eval_score_eq_loo (pred : List Char) (raws : List (List Char)) :
    vqa_eval_score pred raws = vqa_loo_claim pred raws := by
  unfold vqa_eval_score vqa_loo_claim answer_scores_entry
  dsimp only
  set p := evalai_process pred with hp
  set as := raws.map evalai_process with has
  set n := as.length with hn
  set e : ℕ → ℕ × List Char := fun j => (j, as.getD j []) with he
  have henum : as.enum = (List.range n).map e := enum_eq_map_range as
  have hcount : ∀ i : ℕ,
      (List.filter (fun it => decide (it.2 = p))
          (List.filter (fun it => decide (it ≠ e i)) ((List.range n).map e))).length =
      (List.filter (fun j => decide (j ≠ i) && decide (as.getD j [] = p))
          (List.range n)).length := by
    intro i
    rw [List.filter_map, List.filter_map, List.length_map, List.filter_filter]
    refine congrArg List.length (List.filter_congr ?_)
    intro j _
    by_cases hj : j = i
    · subst hj
      simp [he]
    · have hne : e j ≠ e i := fun hEq => hj (congrArg Prod.fst hEq)
      simp [he, hne, hj, Bool.and_comm]
  have haccs : (as.enum.map (fun ga =>
      min 1 ((((List.filter (fun it => decide (it.2 = p))
          (List.filter (fun it => decide (it ≠ ga)) as.enum))).length : ℚ) / 3))) =
      ((List.range n).map (fun i =>
        min 1 ((((List.range n).filter
            (fun j => decide (j ≠ i) && decide (as.getD j [] = p))).length : ℚ) / 3))) := by
    rw [henum, List.map_map]
    apply List.map_congr_left
    intro i _
    simp only [Function.comp]
    rw [hcount i]
  split
  · rw [haccs, List.length_map, List.length_range]
  · rename_i hmem
    symm
    rw [div_eq_zero_iff]
    left
    apply List.sum_eq_zero
    intro x hx
    rw [List.mem_map] at hx
    obtain ⟨i, hi, hxe⟩ := hx
    have hzero : (List.filter (fun j => decide (j ≠ i) && decide (as.getD j [] = p))
        (List.range n)) = [] := by
      rw [List.filter_eq_nil_iff]
      intro j hj
      rw [List.mem_range] at hj
      have hmem2 : as.getD j [] ∈ as := by
        rw [List.getD_eq_getElem?_getD, List.getElem?_eq_getElem hj]
        exact List.getElem_mem hj
      intro hb
      rw [Bool.and_eq_true, decide_eq_true_iff, decide_eq_true_iff] at hb
      exact hmem (hb.2 ▸ hmem2)
    rw [hzero] at hxe
    rw [← hxe]
    simp

/-- C1: for every prediction and every list of exactly 10 ground truths, the
evaluator's soft score equals the leave-one-out agreement of the normalized
prediction (counting, for each annotator in turn, how many of the other
answers equal the normalized prediction, capping `count/3` at 1 and averaging);
and for ground truths `["cat"]*7 + ["dog"]*3` with prediction `"cat"` the
score is exactly `1`. -/
theorem C1_vqa_soft_accuracy :
    (∀ (pred : List Char) (raws : List (List Char)), raws.length = 10 →
      vqa_eval_score pred raws = vqa_loo_claim pred raws) ∧
    vqa_eval_score "cat".toList
      (List.replicate 7 "cat".toList ++ List.replicate 3 "dog".toList) = 1 :=
  ⟨fun pred raws _ => vqa_eval_score_eq_loo pred raws, by with_unfolding_all decide⟩

/-- Witness for C1: the concrete 10-element ground-truth list has length 10 and
the evaluator score on it equals the claim's leave-one-out formula. -/
theorem C1_vqa_soft_accuracy_witness :
    (List.replicate 7 "cat".toList ++ List.replicate 3 "dog".toList).length = 10 ∧
    vqa_eval_score "cat".toList
        (List.replicate 7 "cat".toList ++ List.replicate 3 "dog".toList) =
      vqa_loo_claim "cat".toList
        (List.replicate 7 "cat".toList ++ List.replicate 3 "dog".toList) :=
  ⟨by decide,
   C1_vqa_soft_accuracy.1 "cat".toList
     (List.replicate 7 "cat".toList ++ List.replicate 3 "dog".toList) (by decide)⟩

/-! ## Claim C7: the rolling-row DP computes the classic Levenshtein distance -/

theorem levRec_zero_left (s t : List Char) (j : ℕ) : levRec s t 0 j = j := by
  rw [levRec]

theorem levRec_zero_right (s t : List Char) (j : ℕ) : levRec s t j 0 = j := by
  cases j with
  | zero => rw [levRec]
  | succ i => rw [levRec]

theorem levRec_symm (s t : List Char) : ∀ i j, levRec s t i j = levRec t s j i := by
  intro i
  induction i with
  | zero =>
    intro j
    rw [levRec_zero_left, levRec_zero_right]
  | succ i ihi =>
    intro j
    induction j with
    | zero =>
      rw [levRec_zero_left, levRec_zero_right]
    | succ j ihj =>
      rw [levRec, levRec]
      by_cases h : s.getD i ' ' = t.getD j ' '
      · rw [if_pos h, if_pos h.symm]
        exact ihi j
      · have h' : ¬ t.getD j ' ' = s.getD i ' ' := fun hEq => h hEq.symm
        rw [if_neg h, if_neg h']
        rw [ihi j, ihi (j + 1), ihj]
        rw [min_comm (levRec t s j (i + 1)) (levRec t s (j + 1) i)]

theorem drop_cons_facts {l : List Char} {k : ℕ} {c : Char} {rest : List Char}
    (h : l.drop k = c :: rest) :
    l.getD k ' ' = c ∧ l.drop (k + 1) = rest ∧ k < l.length := by
  have hget : l[k]? = some c := by
    have := List.getElem?_drop l k 0
    rw [h] at this
    simpa using this.symm
  refine ⟨?_, ?_, ?_⟩
  · rw [List.getD_eq_getElem?_getD, hget]
    rfl
  · have := List.drop_drop 1 k l
    rw [h] at this
    simpa [Nat.add_comm] using this.symm
  · have := List.getElem?_eq_some_iff.mp hget
    exact this.1

theorem lev_inner_spec (s1 s2 : List Char) (k : ℕ) :
    ∀ (suffix : List Char) (i : ℕ), s1.drop i = suffix →
    lev_inner (s2.getD k ' ') suffix
        ((List.range' i (suffix.length + 1)).map (fun j => levRec s1 s2 j k))
        (levRec s1 s2 i (k + 1)) =
      (List.range' (i + 1) suffix.length).map (fun j => levRec s1 s2 j (k + 1)) := by
  intro suffix
  induction suffix with
  | nil =>
    intro i _
    simp [lev_inner]
  | cons c1 rest ih =>
    intro i hdrop
    obtain ⟨hget, hdrop1, _⟩ := drop_cons_facts hdrop
    rw [List.length_cons, List.range'_succ, List.range'_succ, List.map_cons, List.map_cons]
    show lev_inner (s2.getD k ' ') (c1 :: rest)
        (levRec s1 s2 i k :: levRec s1 s2 (i + 1) k ::
          (List.range' (i + 1 + 1) rest.length).map (fun j => levRec s1 s2 j k))
        (levRec s1 s2 i (k + 1)) = _
    rw [lev_inner]
    have hv : (if c1 = s2.getD k ' ' then levRec s1 s2 i k
        else 1 + min (levRec s1 s2 i k)
          (min (levRec s1 s2 (i + 1) k) (levRec s1 s2 i (k + 1)))) =
        levRec s1 s2 (i + 1) (k + 1) := by
      by_cases h : c1 = s2.getD k ' '
      · rw [if_pos h]
        have : s1.getD i ' ' = s2.getD k ' ' := hget.symm ▸ h
        simp only [levRec, if_pos this]
      · rw [if_neg h]
        have hne : ¬ s1.getD i ' ' = s2.getD k ' ' := by
          rw [hget]; exact h
        simp only [levRec, if_neg hne]
        rw [min_comm (levRec s1 s2 i (k + 1)) (levRec s1 s2 (i + 1) k)]
    rw [hv]
    have ihx := ih (i + 1) hdrop1
    rw [List.range'_succ, List.map_cons] at ihx
    rw [ihx, List.map_cons]

theorem lev_outer_spec (s1 s2 : List Char) :
    ∀ (suffix : List Char) (k : ℕ), s2.drop k = suffix → k ≤ s2.length →
    lev_outer s1 suffix k ((List.range' 0 (s1.length + 1)).map (fun j => levRec s1 s2 j k)) =
      (List.range' 0 (s1.length + 1)).map (fun j => levRec s1 s2 j s2.length) := by
  intro suffix
  induction suffix with
  | nil =>
    intro k hdrop hk
    have hlen : s2.length ≤ k := by
      have := congrArg List.length hdrop
      rw [List.length_drop] at this
      simp at this
      omega
    have : k = s2.length := le_antisymm hk hlen
    rw [this, lev_outer]
  | cons c2 rest ih =>
    intro k hdrop hk
    obtain ⟨hget, hdrop1, hklt⟩ := drop_cons_facts hdrop
    rw [lev_outer]
    have hspec := lev_inner_spec s1 s2 k s1 0 (List.drop_zero s1)
    rw [levRec_zero_left, hget, Nat.zero_add] at hspec
    have hrow : (k + 1) :: lev_inner c2 s1
        ((List.range' 0 (s1.length + 1)).map (fun j => levRec s1 s2 j k)) (k + 1) =
        (List.range' 0 (s1.length + 1)).map (fun j => levRec s1 s2 j (k + 1)) := by
      conv_rhs => rw [List.range'_succ, List.map_cons, levRec_zero_left]
      rw [hspec]
    rw [hrow]
    exact ih (k + 1) hdrop1 hklt

theorem getLastD_map_range' (f : ℕ → ℕ) :
    ∀ (m a : ℕ) (d : ℕ), ((List.range' a (m + 1)).map f).getLastD d = f (a + m) := by
  intro m
  induction m with
  | zero =>
    intro a d
    simp [List.range'_succ]
  | succ m ih =>
    intro a d
    rw [List.range'_succ, List.map_cons, List.getLastD_cons]
    rw [ih (a + 1) (f a)]
    congr 1
    omega

theorem lev_dp_row_correct (a b : List Char) :
    (lev_outer a b 0 (List.range (a.length + 1))).getLastD 0 =
      levRec a b a.length b.length := by
  have h0 : (List.range' 0 (a.length + 1)).map (fun j => levRec a b j 0) =
      List.range' 0 (a.length + 1) := by
    rw [List.map_congr_left (fun j _ => levRec_zero_right a b j)]
    simp
  rw [List.range_eq_range', ← h0,
    lev_outer_spec a b b 0 (List.drop_zero b) (Nat.zero_le _),
    getLastD_map_range']
  simp

/-- C7: `levenshtein_distance` computes the classic unit-cost
insert/delete/substitute Levenshtein distance — it agrees with the standard
prefix recurrence `levRec` on every pair of strings; the distance between
`"kitten"` and `"sitting"` is `3`, and the dispatcher's ANLS ratio
(distance over the max of the two lengths) for this pair is `3/7`. -/
theorem C7_levenshtein_distance_correct :
    (∀ s t : List Char, levenshtein_distance s t = levRec s t s.length t.length) ∧
    levenshtein_distance "kitten".toList "sitting".toList = 3 ∧
    anls_mode_value "kitten".toList "sitting".toList = 3 / 7 := by
  refine ⟨?_, by decide, by with_unfolding_all decide⟩
  intro s t
  unfold levenshtein_distance
  dsimp only
  split
  · rw [lev_dp_row_correct t s, levRec_symm]
  · exact lev_dp_row_correct s t

/-! ## Claim C2: idempotence of the normalizer -/

theorem replaceLAux_id (pat rep : List Char) :
    ∀ (l : List Char) (fuel : ℕ), containsSub pat l = false → replaceLAux pat rep fuel l = l := by
  intro l
  induction l with
  | nil =>
    intro fuel _
    cases fuel <;> rfl
  | cons c rest ih =>
    intro fuel h
    rw [containsSub, Bool.or_eq_false_iff] at h
    cases fuel with
    | zero => rfl
    | succ fuel =>
      rw [replaceLAux, if_neg (fun hc => by rw [hc.2] at h; exact absurd h.1 (by simp)),
        ih fuel h.2]

theorem replaceL_id (pat rep l : List Char) (h : containsSub pat l = false) :
    replaceL pat rep l = l :=
  replaceLAux_id pat rep l l.length h

theorem containsSub_not_mem {x : Char} {l : List Char} (hx : x ∉ l) (tail : List Char) :
    containsSub (x :: tail) l = false := by
  induction l with
  | nil => rfl
  | cons c rest ih =>
    rw [containsSub, Bool.or_eq_false_iff]
    constructor
    · rw [List.isPrefixOf_cons₂]
      have : ¬ x = c := fun hEq => hx (hEq ▸ List.mem_cons_self c rest)
      simp [this, beq_eq_false_iff_ne, this]
    · exact ih (fun hm => hx (List.mem_cons_of_mem c hm))

theorem lowerL_id (l : List Char) (h : ∀ c ∈ l, Char.toLower c = c) : lowerL l = l := by
  unfold lowerL
  rw [List.map_congr_left h]
  simp

theorem dropWhile_head_id (p : Char → Bool) (l : List Char)
    (h : ∀ c, l.head? = some c → p c = false) : l.dropWhile p = l := by
  cases l with
  | nil => rfl
  | cons c rest =>
    rw [List.dropWhile_cons, if_neg]
    rw [h c rfl]
    simp

theorem stripWS_eq_self (l : List Char)
    (h1 : ∀ c, l.head? = some c → isPySpace c = false)
    (h2 : ∀ c, l.getLast? = some c → isPySpace c = false) : stripWS l = l := by
  unfold stripWS dropWhileEnd
  rw [dropWhile_head_id isPySpace l h1]
  rw [dropWhile_head_id isPySpace l.reverse
    (fun c hc => h2 c (by rwa [← List.head?_reverse]))]
  exact List.reverse_reverse l

theorem periodStripL_id (l : List Char) (h : periodOkL l = true) :
    ∀ fuel, periodStripL fuel l = l := by
  induction l with
  | nil => intro fuel; cases fuel <;> rfl
  | cons c rest ih =>
    intro fuel
    rw [periodOkL, Bool.and_eq_true] at h
    cases fuel with
    | zero => rfl
    | succ fuel =>
      rw [periodStripL, if_neg, ih h.2]
      intro hc
      rw [Bool.and_eq_true] at hc
      rcases Bool.or_eq_true_iff.mp h.1 with h' | h'
      · rw [decide_eq_true_iff] at hc
        exact absurd hc.1 (by simpa using h')
      · rw [h'] at hc
        simp at hc

theorem punct_fold_id (inText : List Char) (ps : List Char) :
    ∀ (l : List Char), (∀ p ∈ ps, p ∉ l) →
    ps.foldl (fun out p =>
      if punctCond p inText then replaceL [p] [] out else replaceL [p] [' '] out) l = l := by
  induction ps with
  | nil => intro l _; rfl
  | cons p ps ih =>
    intro l h
    rw [List.foldl_cons]
    have hc : containsSub [p] l = false := containsSub_not_mem (h p (List.mem_cons_self p ps)) []
    rw [replaceL_id [p] [] l hc, replaceL_id [p] [' '] l hc, ite_self]
    exact ih l (fun q hq => h q (List.mem_cons_of_mem p hq))

theorem mem_of_head? {l : List Char} {c : Char} (h : l.head? = some c) : c ∈ l := by
  cases l with
  | nil => simp at h
  | cons a rest =>
    rw [List.head?_cons, Option.some_inj] at h
    exact h ▸ List.mem_cons_self a rest

theorem mem_of_getLast? {l : List Char} {c : Char} (h : l.getLast? = some c) : c ∈ l := by
  have : l.reverse.head? = some c := by rwa [List.head?_reverse]
  have := mem_of_head? this
  rwa [List.mem_reverse] at this

theorem takeWhile_all_true (p : Char → Bool) (t : List Char) (h : ∀ c ∈ t, p c = true) :
    t.takeWhile p = t ∧ t.dropWhile p = [] := by
  induction t with
  | nil => exact ⟨rfl, rfl⟩
  | cons c rest ih =>
    have hc : p c = true := h c (List.mem_cons_self c rest)
    have ih' := ih (fun d hd => h d (List.mem_cons_of_mem c hd))
    rw [List.takeWhile_cons, List.dropWhile_cons, if_pos hc, if_pos hc]
    exact ⟨by rw [ih'.1], ih'.2⟩

theorem takeWhile_append_sep (p : Char → Bool) (t : List Char) (x : Char) (r : List Char)
    (ht : ∀ c ∈ t, p c = true) (hx : p x = false) :
    (t ++ x :: r).takeWhile p = t ∧ (t ++ x :: r).dropWhile p = x :: r := by
  induction t with
  | nil =>
    rw [List.nil_append]
    rw [List.takeWhile_cons, List.dropWhile_cons, if_neg (by rw [hx]; simp),
      if_neg (by rw [hx]; simp)]
    exact ⟨rfl, rfl⟩
  | cons c rest ih =>
    have hc : p c = true := ht c (List.mem_cons_self c rest)
    have ih' := ih (fun d hd => ht d (List.mem_cons_of_mem c hd))
    rw [List.cons_append, List.takeWhile_cons, List.dropWhile_cons, if_pos hc, if_pos hc]
    exact ⟨by rw [ih'.1], ih'.2⟩

theorem joinSpace_cons_cons (t t' : List Char) (ts : List (List Char)) :
    joinSpace (t :: t' :: ts) = t ++ ' ' :: joinSpace (t' :: ts) := rfl

theorem splitWSAux_joinSpace :
    ∀ (ts : List (List Char)) (fuel : ℕ), (joinSpace ts).length ≤ fuel →
    (∀ t ∈ ts, t ≠ [] ∧ ∀ c ∈ t, isPySpace c = false) →
    splitWSAux fuel (joinSpace ts) = ts := by
  intro ts
  induction ts with
  | nil =>
    intro fuel _ _
    cases fuel <;> rfl
  | cons t ts ih =>
    intro fuel hfuel h
    obtain ⟨htne, htns⟩ := h t (List.mem_cons_self t ts)
    cases ts with
    | nil =>
      show splitWSAux fuel t = [t]
      cases t with
      | nil => exact absurd rfl htne
      | cons c rest =>
        have hlen : rest.length + 1 ≤ fuel := by
          have : (joinSpace [c :: rest]).length = rest.length + 1 := by
            rw [joinSpace]
            simp
          omega
        cases fuel with
        | zero => omega
        | succ fuel =>
          have hcns : isPySpace c = false := htns c (List.mem_cons_self c rest)
          rw [splitWSAux, if_neg (by rw [hcns]; simp)]
          have hall := takeWhile_all_true (fun d => !isPySpace d) (c :: rest)
            (fun d hd => by simp [htns d hd])
          rw [hall.1, hall.2]
          cases fuel <;> rfl
    | cons t' ts' =>
      have hjoin : joinSpace (t :: t' :: ts') = t ++ ' ' :: joinSpace (t' :: ts') :=
        joinSpace_cons_cons t t' ts'
      rw [hjoin] at hfuel ⊢
      cases t with
      | nil => exact absurd rfl htne
      | cons c rest =>
        have hcns : isPySpace c = false := htns c (List.mem_cons_self c rest)
        cases fuel with
        | zero =>
          simp at hfuel
        | succ fuel =>
          rw [List.cons_append, splitWSAux, if_neg (by rw [hcns]; simp), ← List.cons_append]
          have hsep := takeWhile_append_sep (fun d => !isPySpace d) (c :: rest) ' '
            (joinSpace (t' :: ts')) (fun d hd => by simp [htns d hd]) (by rfl)
          rw [hsep.1, hsep.2]
          have hfuel2 : (joinSpace (t' :: ts')).length + 1 ≤ fuel := by
            rw [List.length_append, List.length_cons, List.length_cons] at hfuel
            omega
          cases fuel with
          | zero => omega
          | succ fuel =>
            rw [splitWSAux, if_pos (show isPySpace ' ' = true from rfl)]
            rw [ih fuel (by omega) (fun u hu => h u (List.mem_cons_of_mem (c :: rest) hu))]

theorem splitWS_joinSpace (ts : List (List Char))
    (h : ∀ t ∈ ts, t ≠ [] ∧ ∀ c ∈ t, isPySpace c = false) :
    splitWS (joinSpace ts) = ts :=
  splitWSAux_joinSpace ts (joinSpace ts).length le_rfl h

theorem mem_joinSpace {c : Char} :
    ∀ {ts : List (List Char)}, c ∈ joinSpace ts → c = ' ' ∨ ∃ t ∈ ts, c ∈ t := by
  intro ts
  induction ts with
  | nil => intro h; simp [joinSpace] at h
  | cons t ts ih =>
    intro h
    cases ts with
    | nil =>
      right
      exact ⟨t, List.mem_cons_self t [], h⟩
    | cons t' ts' =>
      rw [joinSpace_cons_cons] at h
      rcases List.mem_append.mp h with h | h
      · right
        exact ⟨t, List.mem_cons_self t _, h⟩
      · rcases List.mem_cons.mp h with h | h
        · left; exact h
        · rcases ih h with h | ⟨u, hu, hc⟩
          · left; exact h
          · right
            exact ⟨u, List.mem_cons_of_mem t hu, hc⟩

theorem joinSpace_head?_nospace (t : List Char) (ts : List (List Char)) (htne : t ≠ [])
    (htns : ∀ c ∈ t, isPySpace c = false) :
    ∀ c, (joinSpace (t :: ts)).head? = some c → isPySpace c = false := by
  intro c hc
  cases ts with
  | nil =>
    exact htns c (mem_of_head? hc)
  | cons t' ts' =>
    rw [joinSpace_cons_cons] at hc
    cases t with
    | nil => exact absurd rfl htne
    | cons a rest =>
      rw [List.cons_append, List.head?_cons, Option.some_inj] at hc
      exact hc ▸ htns a (List.mem_cons_self a rest)

theorem joinSpace_getLast?_nospace :
    ∀ (ts : List (List Char)), (∀ t ∈ ts, t ≠ [] ∧ ∀ c ∈ t, isPySpace c = false) →
    ∀ c, (joinSpace ts).getLast? = some c → isPySpace c = false := by
  intro ts
  induction ts with
  | nil => intro _ c hc; simp [joinSpace] at hc
  | cons t ts ih =>
    intro h c hc
    cases ts with
    | nil =>
      exact (h t (List.mem_cons_self t [])).2 c (mem_of_getLast? hc)
    | cons t' ts' =>
      rw [joinSpace_cons_cons, List.getLast?_append] at hc
      have hne : joinSpace (t' :: ts') ≠ [] := by
        intro hnil
        have ht'ne := (h t' (List.mem_cons_of_mem t (List.mem_cons_self t' ts'))).1
        cases t' with
        | nil => exact ht'ne rfl
        | cons a rest =>
          cases ts' with
          | nil => simp [joinSpace] at hnil
          | cons u us => rw [joinSpace_cons_cons] at hnil; simp at hnil
      cases hJ : joinSpace (t' :: ts') with
      | nil => exact absurd hJ hne
      | cons d J' =>
        rw [hJ, List.getLast?_cons_cons] at hc
        cases hx : (d :: J').getLast? with
        | none => simp at hx
        | some x =>
          rw [hx] at hc
          simp only [Option.or_some, Option.some_inj] at hc
          subst hc
          exact ih (fun u hu => h u (List.mem_cons_of_mem t hu)) x (by rw [hJ, hx])

theorem periodOkL_append (l r : List Char) (hl : periodOkL l = true) (hr : periodOkL r = true) :
    periodOkL (l ++ r) = true := by
  induction l with
  | nil => exact hr
  | cons c rest ih =>
    rw [periodOkL, Bool.and_eq_true] at hl
    rw [List.cons_append, periodOkL, Bool.and_eq_true]
    refine ⟨?_, ih hl.2⟩
    rcases Bool.or_eq_true_iff.mp hl.1 with h | h
    · rw [Bool.or_eq_true_iff]; left; exact h
    · rw [Bool.or_eq_true_iff]; right
      cases rest with
      | nil => simp [headIsDigit] at h
      | cons d rest' => exact h

theorem periodOkL_joinSpace :
    ∀ (ts : List (List Char)), (∀ t ∈ ts, periodOkL t = true) →
    periodOkL (joinSpace ts) = true := by
  intro ts
  induction ts with
  | nil => intro _; rfl
  | cons t ts ih =>
    intro h
    cases ts with
    | nil => exact h t (List.mem_cons_self t [])
    | cons t' ts' =>
      rw [joinSpace_cons_cons]
      refine periodOkL_append t (' ' :: joinSpace (t' :: ts'))
        (h t (List.mem_cons_self t _)) ?_
      rw [periodOkL, Bool.and_eq_true]
      exact ⟨by simp, ih (fun u hu => h u (List.mem_cons_of_mem t hu))⟩

theorem tokenOkChar_spec {c : Char} (h : tokenOkChar c = true) :
    Char.toLower c = c ∧ isPySpace c = false ∧ c ∉ PUNCTUATIONS ∧ c ≠ apos := by
  unfold tokenOkChar at h
  simp only [Bool.and_eq_true, beq_iff_eq, Bool.not_eq_true', decide_eq_true_iff] at h
  exact ⟨h.1.1.1, h.1.1.2, h.1.2, h.2⟩

theorem tokenOk_spec {t : List Char} (h : tokenOk t = true) :
    t ≠ [] ∧ (∀ c ∈ t, tokenOkChar c = true) ∧ periodOkL t = true ∧
    List.lookup t NUMBER_MAP = none ∧ t ∉ ARTICLES ∧
    List.lookup t CONTRACTIONS = none := by
  unfold tokenOk at h
  simp only [Bool.and_eq_true, Bool.not_eq_true', List.all_eq_true,
    Option.isNone_iff_eq_none, decide_eq_true_iff, List.isEmpty_eq_false] at h
  exact ⟨h.1.1.1.1.1, h.1.1.1.1.2, h.1.1.1.2, h.1.1.2, h.1.2, h.2⟩

theorem digit_article_foldl (ts : List (List Char))
    (h : ∀ w ∈ ts, List.lookup w NUMBER_MAP = none ∧ w ∉ ARTICLES) :
    ∀ acc, ts.foldl (fun acc word =>
      let word := match List.lookup word NUMBER_MAP with
        | some v => v
        | none => word
      if word ∈ ARTICLES then acc else acc ++ [word]) acc = acc ++ ts := by
  induction ts with
  | nil => intro acc; simp
  | cons w ts ih =>
    intro acc
    obtain ⟨hw1, hw2⟩ := h w (List.mem_cons_self w ts)
    rw [List.foldl_cons]
    have hstep : (let word := match List.lookup w NUMBER_MAP with
        | some v => v
        | none => w
      if word ∈ ARTICLES then acc else acc ++ [word]) = acc ++ [w] := by
      rw [hw1]
      exact if_neg hw2
    rw [hstep, ih (fun u hu => h u (List.mem_cons_of_mem w hu)) (acc ++ [w]),
      List.append_assoc, List.singleton_append]

theorem contraction_map_id (ts : List (List Char))
    (h : ∀ w ∈ ts, List.lookup w CONTRACTIONS = none) :
    ts.map (fun word => match List.lookup word CONTRACTIONS with
      | some v => v
      | none => word) = ts := by
  have : ts.map (fun word => match List.lookup word CONTRACTIONS with
      | some v => v
      | none => word) = ts.map id := by
    apply List.map_congr_left
    intro w hw
    rw [h w hw]
    rfl
  rw [this, List.map_id]

/-- Strings in normalized shape are fixed points of the full pipeline. -/
theorem evalai_process_fixed (y : List Char) (h : normShape y = true) :
    evalai_process y = y := by
  unfold normShape at h
  rw [Bool.and_eq_true] at h
  obtain ⟨hjoinb, halltok⟩ := h
  have hjoin : joinSpace (splitWS y) = y := by rwa [beq_iff_eq] at hjoinb
  rw [List.all_eq_true] at halltok
  have htok := fun t ht => tokenOk_spec (halltok t ht)
  have htne : ∀ t ∈ splitWS y, t ≠ [] := fun t ht => (htok t ht).1
  have htokc : ∀ t ∈ splitWS y, ∀ c ∈ t, tokenOkChar c = true :=
    fun t ht => (htok t ht).2.1
  have htns : ∀ t ∈ splitWS y, ∀ c ∈ t, isPySpace c = false :=
    fun t ht c hc => (tokenOkChar_spec (htokc t ht c hc)).2.1
  have hmemy : ∀ c ∈ y, c = ' ' ∨ ∃ t ∈ splitWS y, c ∈ t :=
    fun c hc => mem_joinSpace (show c ∈ joinSpace (splitWS y) by rw [hjoin]; exact hc)
  have hlower : ∀ c ∈ y, Char.toLower c = c := by
    intro c hc
    rcases hmemy c hc with hsp | ⟨t, ht, hct⟩
    · rw [hsp]; rfl
    · exact (tokenOkChar_spec (htokc t ht c hct)).1
  have hpunct : ∀ p ∈ PUNCTUATIONS, p ∉ y := by
    intro p hp hpy
    rcases hmemy p hpy with hsp | ⟨t, ht, hct⟩
    · rw [hsp] at hp
      exact absurd hp (by decide)
    · exact (tokenOkChar_spec (htokc t ht p hct)).2.2.1 hp
  have hspace_notin : ∀ d : Char, isPySpace d = true → d ≠ ' ' → d ∉ y := by
    intro d hd hd2 hdy
    rcases hmemy d hdy with hsp | ⟨t, ht, hct⟩
    · exact hd2 hsp
    · rw [(tokenOkChar_spec (htokc t ht d hct)).2.1] at hd
      simp at hd
  have hapos : apos ∉ y := by
    intro hy
    rcases hmemy apos hy with hsp | ⟨t, ht, hct⟩
    · exact absurd hsp.symm (by decide)
    · exact (tokenOkChar_spec (htokc t ht apos hct)).2.2.2 rfl
  have hhead : ∀ c, y.head? = some c → isPySpace c = false := by
    intro c hc
    cases hts : splitWS y with
    | nil =>
      rw [hts, joinSpace] at hjoin
      rw [← hjoin] at hc
      simp at hc
    | cons t ts' =>
      rw [hts] at hjoin
      rw [← hjoin] at hc
      exact joinSpace_head?_nospace t ts' (htne t (hts ▸ List.mem_cons_self t ts'))
        (htns t (hts ▸ List.mem_cons_self t ts')) c hc
  have hlast : ∀ c, y.getLast? = some c → isPySpace c = false := by
    intro c hc
    rw [← hjoin] at hc
    exact joinSpace_getLast?_nospace (splitWS y)
      (fun t ht => ⟨htne t ht, htns t ht⟩) c hc
  have hstrip : stripWS y = y := stripWS_eq_self y hhead hlast
  have h1 : word_tokenize y = y := by
    show stripWS (replaceL [apos, 's'] [' ', apos, 's']
      (replaceL ['?'] [] (replaceL [','] [] (lowerL y)))) = y
    rw [lowerL_id y hlower,
      replaceL_id [','] [] y (containsSub_not_mem (hpunct ',' (by decide)) []),
      replaceL_id ['?'] [] y (containsSub_not_mem (hpunct '?' (by decide)) []),
      replaceL_id [apos, 's'] [' ', apos, 's'] y (containsSub_not_mem hapos ['s'])]
    exact hstrip
  have h2 : stripWS (replaceL ['\t'] [' '] (replaceL ['\n'] [' '] y)) = y := by
    rw [replaceL_id ['\n'] [' '] y
        (containsSub_not_mem (hspace_notin '\n' rfl (by decide)) []),
      replaceL_id ['\t'] [' '] y
        (containsSub_not_mem (hspace_notin '\t' rfl (by decide)) [])]
    exact hstrip
  have hperiod : periodOkL y = true := by
    rw [← hjoin]
    exact periodOkL_joinSpace (splitWS y) (fun t ht => (htok t ht).2.2.1)
  have h3 : process_punctuation y = y := by
    show periodStripL 32 (PUNCTUATIONS.foldl (fun out p =>
      if punctCond p y then replaceL [p] [] out else replaceL [p] [' '] out) y) = y
    rw [punct_fold_id y PUNCTUATIONS y hpunct]
    exact periodStripL_id y hperiod 32
  have h4 : process_digit_article y = y := by
    show joinSpace ((List.foldl (fun acc word =>
        let word := match List.lookup word NUMBER_MAP with
          | some v => v
          | none => word
        if word ∈ ARTICLES then acc else acc ++ [word]) [] (splitWS (lowerL y))).map
        (fun word => match List.lookup word CONTRACTIONS with
          | some v => v
          | none => word)) = y
    rw [lowerL_id y hlower]
    rw [digit_article_foldl (splitWS y)
      (fun w hw => ⟨(htok w hw).2.2.2.1, (htok w hw).2.2.2.2.1⟩) []]
    rw [List.nil_append]
    rw [contraction_map_id (splitWS y) (fun w hw => (htok w hw).2.2.2.2.2)]
    exact hjoin
  show process_digit_article (process_punctuation (stripWS (replaceL ['\t'] [' ']
    (replaceL ['\n'] [' '] (word_tokenize y))))) = y
  rw [h1, h2, h3, h4]

/-- C2 counterexample: normalization is not idempotent on all strings — the
contraction pass maps `"whats"` to `"what's"`, but a second normalization
splits the introduced `'s` (`word_tokenize` replaces `"'s"` with `" 's"`),
yielding `"what 's"`. -/
theorem C2_normalize_not_idempotent :
    evalai_process (evalai_process "whats".toList) ≠ evalai_process "whats".toList := by
  decide

/-- C2 (amended): the normalizer is idempotent on every string whose single
normalization is in normalized shape — whitespace-split tokens joined by
single spaces, each token nonempty, over characters fixed by lowercasing that
are not whitespace, listed punctuation, or apostrophes, with periods only
before digits, and no token being a number word, an article, or a contraction
key.  In general idempotence fails (see the counterexample): contraction
expansion introduces `'s`, which a second pass splits, and the period
substitution is capped at 32 replacements. -/
theorem C2_normalize_idempotent_on_normal_shape :
    ∀ x : List Char, normShape (evalai_process x) = true →
      evalai_process (evalai_process x) = evalai_process x :=
  fun _ h => evalai_process_fixed _ h

/-- Witness for C2: the normalization of `"Two dogs, a cat."` is in normalized
shape, and normalizing it again leaves it unchanged. -/
theorem C2_normalize_idempotent_on_normal_shape_witness :
    normShape (evalai_process "Two dogs, a cat.".toList) = true ∧
    evalai_process (evalai_process "Two dogs, a cat.".toList) =
      evalai_process "Two dogs, a cat.".toList :=
  ⟨by decide, C2_normalize_idempotent_on_normal_shape "Two dogs, a cat.".toList (by decide)⟩

end InternVL
